import Mathlib

/-!
Shallow embedding of the core of
`src/apriltags2_ros/apriltags2_ros/src/common_functions.cpp`
(the `apriltags2_ros::TagDetector` class) and proofs about it.

Real-number quantities (tag sizes, matrix entries, pixel coordinates) are
modelled over `ℚ`; the C++ code computes with `double`, and the claims under
study are structural (which elements are produced, in which order, with which
control flow), not about floating-point rounding.
-/

namespace Apriltags2

/-- Entries of the 3×3 homography matrix `apriltag_detection_t::H`
(row-major `h00 … h22`). -/
structure Mat33 where
  h00 : ℚ
  h01 : ℚ
  h02 : ℚ
  h10 : ℚ
  h11 : ℚ
  h12 : ℚ
  h20 : ℚ
  h21 : ℚ
  h22 : ℚ
deriving DecidableEq

/-- The fields of `apriltag_detection_t` that the core under study reads:
the integer tag `id` and the homography `H`.  (The corner array `p` and
center `c` are only used by the drawing code, which is out of scope.) -/
structure Det where
  id : ℤ
  H : Mat33
deriving DecidableEq

/-- Comparison relation realised by `TagDetector::idComparison`
(common_functions.cpp:408-413): ascending order of `id`. -/
def idLe (a b : Det) : Prop := a.id ≤ b.id

instance : DecidableRel idLe := fun a b => Int.decLe a.id b.id

instance : IsTotal Det idLe := ⟨fun a b => Int.le_total a.id b.id⟩

instance : IsTrans Det idLe := ⟨fun _ _ _ hab hbc => le_trans hab hbc⟩

/-- Embedding of `zarray_sort(detections_, &idComparison)`
(common_functions.cpp:417): the detection array sorted ascending by `id`.
`qsort` leaves the relative order of equal-id elements unspecified; an
insertion sort by the same comparator is one admissible realisation, and no
result proved below depends on the tie order. -/
def sortById (l : List Det) : List Det := List.insertionSort idLe l

/-- Value of `id_next` in `TagDetector::removeDuplicates`
(common_functions.cpp:430-437): the id of the detection after the cursor,
or the sentinel `-1` when the cursor is on the last detection. -/
def nextId (arr : List Det) (count : ℕ) : ℤ :=
  if hn : count + 1 < arr.length then (arr.get ⟨count + 1, hn⟩).id else -1

/-- Embedding of the `while (true)` scan of `TagDetector::removeDuplicates`
(common_functions.cpp:420-456), with explicit fuel so that every call is
total.  State: the detection array `arr`, the cursor `count` and the flag
`duplicate_detected`.  Each loop iteration either returns (`count >
zarray_size-1`), removes the element at `count` (`zarray_remove_index`
with `shuffle = 0`, i.e. order-preserving `eraseIdx`) setting the flag to
`true` and then back to `false` when `id_current != id_next`, or advances
`count`. -/
def rdLoop (fuel : ℕ) (arr : List Det) (count : ℕ) (dup : Bool) :
    Option (List Det) :=
  match fuel with
  | 0 => none
  | fuel + 1 =>
    if hc : count < arr.length then
      if (arr.get ⟨count, hc⟩).id = nextId arr count ∨
          ((arr.get ⟨count, hc⟩).id ≠ nextId arr count ∧ dup) then
        if (arr.get ⟨count, hc⟩).id ≠ nextId arr count then
          rdLoop fuel (arr.eraseIdx count) count false
        else
          rdLoop fuel (arr.eraseIdx count) count true
      else
        rdLoop fuel arr (count + 1) dup
    else
      some arr

/-- Functional form of one left-to-right pass of the `removeDuplicates` scan
over the portion of the (sorted) array at and after the cursor; `dup` is the
`duplicate_detected` flag.  `rdLoop_eq_scan` below proves that the fueled
loop computes exactly this. -/
def scan (dup : Bool) : List Det → List Det
  | [] => []
  | [d] => if d.id = -1 ∨ dup then [] else [d]
  | d1 :: d2 :: t =>
    if d1.id = d2.id then scan true (d2 :: t)
    else if dup then scan false (d2 :: t)
    else d1 :: scan dup (d2 :: t)

/-- Embedding of `TagDetector::removeDuplicates` (common_functions.cpp:415-457):
sort by id, then run the scan loop.  Fuel `2·n + 1` is sufficient
(`rdLoop_eq_scan`), so the `getD` default is never taken. -/
def removeDuplicates (l : List Det) : List Det :=
  (rdLoop (2 * l.length + 1) (sortById l) 0 false).getD []

/-- A zero homography, used for concrete test detections. -/
def M0 : Mat33 := ⟨0, 0, 0, 0, 0, 0, 0, 0, 0⟩

/-- A 3D object point (`cv::Point3d`). -/
structure Vec3 where
  x : ℚ
  y : ℚ
  z : ℚ
deriving DecidableEq

/-- A 2D image point (`cv::Point2d`). -/
structure Point2 where
  x : ℚ
  y : ℚ
deriving DecidableEq

/-- A 4×4 homogeneous transform (`cv::Matx44d`), row-major entries. -/
structure Mat44 where
  m00 : ℚ
  m01 : ℚ
  m02 : ℚ
  m03 : ℚ
  m10 : ℚ
  m11 : ℚ
  m12 : ℚ
  m13 : ℚ
  m20 : ℚ
  m21 : ℚ
  m22 : ℚ
  m23 : ℚ
  m30 : ℚ
  m31 : ℚ
  m32 : ℚ
  m33 : ℚ
deriving DecidableEq

/-- The identity transform `cv::Matx44d::eye()`. -/
def Mat44.eye : Mat44 := ⟨1, 0, 0, 0, 0, 1, 0, 0, 0, 0, 1, 0, 0, 0, 0, 1⟩

/-- Application of the top 3×4 minor `T.get_minor<3,4>(0,0)` of a 4×4
homogeneous transform to the homogeneous column `cv::Vec4d(v0,v1,v2,v3)`,
exactly as in `TagDetector::addObjectPoints`. -/
def Mat44.minorMul (T : Mat44) (v0 v1 v2 v3 : ℚ) : Vec3 :=
  ⟨T.m00 * v0 + T.m01 * v1 + T.m02 * v2 + T.m03 * v3,
   T.m10 * v0 + T.m11 * v1 + T.m12 * v2 + T.m13 * v3,
   T.m20 * v0 + T.m21 * v1 + T.m22 * v2 + T.m23 * v3⟩

/-- Application of the rotation block (top-left 3×3) and translation column
of a 4×4 homogeneous transform to an (inhomogeneous) 3D point.  This is the
"rotation and translation" reading used to state claim C4. -/
def Mat44.applyAffine (T : Mat44) (p : Vec3) : Vec3 :=
  ⟨T.m00 * p.x + T.m01 * p.y + T.m02 * p.z + T.m03,
   T.m10 * p.x + T.m11 * p.y + T.m12 * p.z + T.m13,
   T.m20 * p.x + T.m21 * p.y + T.m22 * p.z + T.m23⟩

/-- Embedding of `TagDetector::addObjectPoints` (common_functions.cpp:459-468):
pushes onto `objectPoints` the four homogeneous corners
`(-s,-s,0,1), (s,-s,0,1), (s,s,0,1), (-s,s,0,1)`, in that order, each
multiplied by the top 3×4 minor of `T_oi`. -/
def addObjectPoints (s : ℚ) (T_oi : Mat44) (objectPoints : List Vec3) :
    List Vec3 :=
  objectPoints ++
    [T_oi.minorMul (-s) (-s) 0 1,
     T_oi.minorMul s (-s) 0 1,
     T_oi.minorMul s s 0 1,
     T_oi.minorMul (-s) s 0 1]

/-- Modelled from the spec: `homography_project` of the external AprilTags 2
library (`common/homography.h`, which is not part of this repository's
sources).  Per the spec glossary, a homography is a 3×3 projective transform
mapping tag-local unit-square coordinates to image pixels; over ℚ, division
by a vanishing denominator is total (returns 0) and plays no role in the
claims. -/
def homographyProject (H : Mat33) (x y : ℚ) : Point2 :=
  ⟨(H.h00 * x + H.h01 * y + H.h02) / (H.h20 * x + H.h21 * y + H.h22),
   (H.h10 * x + H.h11 * y + H.h12) / (H.h20 * x + H.h21 * y + H.h22)⟩

/-- The corner abscissa table `double tag_x[4] = {-1,1,1,-1}` of
`TagDetector::addImagePoints` (common_functions.cpp:476). -/
def tagX : Fin 4 → ℚ := ![-1, 1, 1, -1]

/-- The corner ordinate table `double tag_y[4] = {1,1,-1,-1}` of
`TagDetector::addImagePoints` (common_functions.cpp:477), negated relative
to the decoder's native tag frame because its y-axis points down. -/
def tagY : Fin 4 → ℚ := ![1, 1, -1, -1]

/-- Embedding of `TagDetector::addImagePoints` (common_functions.cpp:470-488):
for `i = 0..3`, pushes onto `imagePoints` the homography projection of
`(tag_x[i], tag_y[i])`. -/
def addImagePoints (d : Det) (imagePoints : List Point2) : List Point2 :=
  imagePoints ++
    (List.finRange 4).map (fun i => homographyProject d.H (tagX i) (tagY i))

/-- Modelled from the spec: `StandaloneTagDescription` is declared in the
header `common_functions.h`, which is not among this repository's sources;
spec §3 describes it as `{id, size, frame_name}`. -/
structure StandaloneTagDescription where
  id : ℤ
  size : ℚ
  frame_name : String
deriving DecidableEq

/-- Modelled from the spec: one member tag of a bundle — id, size and rigid
offset transform from the member-tag frame to the bundle origin frame
(spec §3). -/
structure BundleMember where
  id : ℤ
  size : ℚ
  T_oi : Mat44
deriving DecidableEq

/-- Modelled from the spec: `TagBundleDescription` is declared in the missing
header; spec §3 describes it as a name plus an ordered member list, with a
reverse index `id2idx_` for membership tests. -/
structure TagBundleDescription where
  name : String
  members : List BundleMember
deriving DecidableEq

/-- Modelled from the spec: `bundleIds()` returns the ids of ALL configured
members, in layout order (spec §3, §4.5). -/
def TagBundleDescription.bundleIds (b : TagBundleDescription) : List ℤ :=
  b.members.map BundleMember.id

/-- Modelled from the spec: `bundleSizes()` returns the sizes of ALL
configured members, in layout order. -/
def TagBundleDescription.bundleSizes (b : TagBundleDescription) : List ℚ :=
  b.members.map BundleMember.size

/-- The membership test `bundle.id2idx_.find(tagID) != bundle.id2idx_.end()`
(common_functions.cpp:242). -/
def TagBundleDescription.isMember (b : TagBundleDescription) (tagID : ℤ) :
    Bool :=
  b.members.any (fun m => m.id == tagID)

/-- Modelled from the spec: `memberSize(tagID)` — the configured size of the
member with the given id. -/
def TagBundleDescription.memberSize (b : TagBundleDescription) (tagID : ℤ) :
    ℚ :=
  ((b.members.find? (fun m => m.id == tagID)).map BundleMember.size).getD 0

/-- Modelled from the spec: `memberT_oi(tagID)` — the configured rigid offset
of the member with the given id. -/
def TagBundleDescription.memberT_oi (b : TagBundleDescription) (tagID : ℤ) :
    Mat44 :=
  ((b.members.find? (fun m => m.id == tagID)).map BundleMember.T_oi).getD
    Mat44.eye

/-- Embedding of `TagDetector::findStandaloneTagDescription`
(common_functions.cpp:856-872): look the id up in the standalone registry
(`std::map<int, StandaloneTagDescription>`, unique keys); the
warning-printing side channel is not modelled. -/
def findStandaloneTagDescription (reg : List StandaloneTagDescription)
    (tagID : ℤ) : Option StandaloneTagDescription :=
  reg.find? (fun s => s.id == tagID)

/-- The configuration state of a `TagDetector`: the parsed standalone tag
registry and bundle list. -/
structure TagDetectorConfig where
  standalone_tag_descriptions : List StandaloneTagDescription
  tag_bundle_descriptions : List TagBundleDescription

/-- The pair of per-bundle accumulators `bundleObjectPoints` /
`bundleImagePoints` of `detectTags` (common_functions.cpp:218-219), keyed by
bundle name, kept together because they are always updated together. -/
abbrev Acc := List (String × (List Vec3 × List Point2))

/-- Appending points to the accumulator entry of key `k`
(`bundleObjectPoints[bundleName]` followed by the push_backs): an existing
entry is extended, a missing entry is created. -/
def accAppend : Acc → String → List Vec3 → List Point2 → Acc
  | [], k, ops, ips => [(k, (ops, ips))]
  | (k1, v) :: t, k, ops, ips =>
    if k1 = k then (k1, (v.1 ++ ops, v.2 ++ ips)) :: t
    else (k1, v) :: accAppend t k ops ips

/-- An entry of the returned `AprilTagDetectionArray`: the `id` and `size`
lists of the message (`tag_detection.id` / `tag_detection.size`).  The pose
itself is produced by the external PnP solver and is outside the embedding. -/
structure AprilTagDetection where
  id : List ℤ
  size : List ℚ
deriving DecidableEq

/-- The four object points a member tag contributes to its bundle's
accumulator (common_functions.cpp:249-252): corner points scaled by
`memberSize/2` and mapped through `memberT_oi`. -/
def contribObj (b : TagBundleDescription) (d : Det) : List Vec3 :=
  addObjectPoints (b.memberSize d.id / 2) (b.memberT_oi d.id) []

/-- The four image points a detection contributes
(common_functions.cpp:254-255). -/
def contribImg (d : Det) : List Point2 :=
  addImagePoints d []

/-- The inner loop of `detectTags` over the registered bundles
(common_functions.cpp:237-257): every bundle containing the detection's id
receives the detection's object/image point contribution under its name. -/
def bundleFold (d : Det) (acc : Acc) (bs : List TagBundleDescription) : Acc :=
  bs.foldl (fun acc b =>
    if b.isMember d.id then
      accAppend acc b.name (contribObj b d) (contribImg d)
    else acc) acc

/-- Processing of one surviving detection in the main loop of `detectTags`
(common_functions.cpp:224-314): accumulate bundle contributions, then look
for a standalone description; if none exists the loop `continue`s without
touching the detection array, otherwise a detection entry with the singleton
id and size is appended (the pose solve itself is external). -/
def processDetection (cfg : TagDetectorConfig)
    (st : Acc × List AprilTagDetection) (d : Det) :
    Acc × List AprilTagDetection :=
  match findStandaloneTagDescription cfg.standalone_tag_descriptions d.id with
  | none => (bundleFold d st.1 cfg.tag_bundle_descriptions, st.2)
  | some desc =>
    (bundleFold d st.1 cfg.tag_bundle_descriptions,
      st.2 ++ [⟨[d.id], [desc.size]⟩])

/-- The per-bundle step of the second phase of `detectTags`
(common_functions.cpp:320-351): if the bundle's name has an accumulator
entry (at least one member was observed), one detection entry carrying the
FULL configured id and size lists is produced, otherwise none. -/
def bundleEntryFor (acc : Acc) (b : TagBundleDescription) :
    Option AprilTagDetection :=
  if (List.lookup b.name acc).isSome then
    some ⟨b.bundleIds, b.bundleSizes⟩
  else none

/-- Embedding of the per-frame pipeline of `TagDetector::detectTags`
(common_functions.cpp:186-406) after the external decoder returned `raw`:
remove duplicates, process each surviving detection (standalone entries in
detection order), then append one entry per bundle with a non-empty
accumulator, in configuration order.  Returns the detection array and the
final accumulators. -/
def detectTags (cfg : TagDetectorConfig) (raw : List Det) :
    List AprilTagDetection × Acc :=
  match (removeDuplicates raw).foldl (processDetection cfg) ([], []) with
  | (acc, stdEntries) =>
    (stdEntries ++
      cfg.tag_bundle_descriptions.filterMap (bundleEntryFor acc), acc)

/-- Raw configuration of one bundle member, as read from the parameter
server in `parseTagBundles` (common_functions.cpp:767-810): required id and
size, optional pose fields with defaults 0 (position), `qw = 1` and 0
(quaternion) supplied by `xmlRpcGetDoubleWithDefault`. -/
structure RawMember where
  id : ℤ
  size : ℚ
  x : Option ℚ
  y : Option ℚ
  z : Option ℚ
  qw : Option ℚ
  qx : Option ℚ
  qy : Option ℚ
  qz : Option ℚ
deriving DecidableEq

/-- Raw configuration of one bundle: optional name (default
`bundle_<index>`) and the member layout. -/
structure RawBundle where
  name : Option String
  layout : List RawMember
deriving DecidableEq

/-- The rigid transform `T_mj` built in `parseTagBundles`
(common_functions.cpp:794-802): the quaternion is normalised
(`q_tag.normalize()`) and converted to a rotation matrix.  For a quaternion
of squared norm `n` the normalised rotation matrix has the rational entries
below — the square root in the normalisation cancels — so the construction
is exact over ℚ. -/
def quatToTransform (x y z qw qx qy qz : ℚ) : Mat44 :=
  ⟨1 - 2 * (qy ^ 2 + qz ^ 2) / (qw ^ 2 + qx ^ 2 + qy ^ 2 + qz ^ 2),
   2 * (qx * qy - qw * qz) / (qw ^ 2 + qx ^ 2 + qy ^ 2 + qz ^ 2),
   2 * (qx * qz + qw * qy) / (qw ^ 2 + qx ^ 2 + qy ^ 2 + qz ^ 2),
   x,
   2 * (qx * qy + qw * qz) / (qw ^ 2 + qx ^ 2 + qy ^ 2 + qz ^ 2),
   1 - 2 * (qx ^ 2 + qz ^ 2) / (qw ^ 2 + qx ^ 2 + qy ^ 2 + qz ^ 2),
   2 * (qy * qz - qw * qx) / (qw ^ 2 + qx ^ 2 + qy ^ 2 + qz ^ 2),
   y,
   2 * (qx * qz - qw * qy) / (qw ^ 2 + qx ^ 2 + qy ^ 2 + qz ^ 2),
   2 * (qy * qz + qw * qx) / (qw ^ 2 + qx ^ 2 + qy ^ 2 + qz ^ 2),
   1 - 2 * (qx ^ 2 + qy ^ 2) / (qw ^ 2 + qx ^ 2 + qy ^ 2 + qz ^ 2),
   z,
   0, 0, 0, 1⟩

/-- Construction of a `BundleMember` from its raw configuration, with the
defaults of `xmlRpcGetDoubleWithDefault` (common_functions.cpp:787-793). -/
def buildMember (m : RawMember) : BundleMember :=
  ⟨m.id, m.size,
    quatToTransform (m.x.getD 0) (m.y.getD 0) (m.z.getD 0) (m.qw.getD 1)
      (m.qx.getD 0) (m.qy.getD 0) (m.qz.getD 0)⟩

/-- The size cross-check of `parseTagBundles` (common_functions.cpp:777-784):
a member whose id also has a standalone description must declare the same
size (`ROS_ASSERT(size == standaloneDescription->size())`). -/
def memberMismatch (reg : List StandaloneTagDescription) (m : RawMember) :
    Bool :=
  match findStandaloneTagDescription reg m.id with
  | some desc => m.size != desc.size
  | none => false

/-- The member loop of `parseTagBundles` (common_functions.cpp:767-810): a
size mismatch raises the load-time error (modelled as `Except.error`), which
aborts the whole section. -/
def parseMembers (reg : List StandaloneTagDescription) :
    List RawMember → Except String (List BundleMember)
  | [] => Except.ok []
  | m :: t =>
    if memberMismatch reg m then
      Except.error "standalone and bundle-member size mismatch"
    else
      match parseMembers reg t with
      | Except.error e => Except.error e
      | Except.ok ms => Except.ok (buildMember m :: ms)

/-- The bundle loop of `parseTagBundles` (common_functions.cpp:740-812),
carrying the index used for the default name `bundle_<i>`. -/
def parseBundlesFrom (reg : List StandaloneTagDescription) (i : ℕ) :
    List RawBundle → Except String (List TagBundleDescription)
  | [] => Except.ok []
  | rb :: t =>
    match parseMembers reg rb.layout with
    | Except.error e => Except.error e
    | Except.ok ms =>
      match parseBundlesFrom reg (i + 1) t with
      | Except.error e => Except.error e
      | Except.ok bs =>
        Except.ok (⟨rb.name.getD ("bundle_" ++ toString i), ms⟩ :: bs)

/-- Embedding of `TagDetector::parseTagBundles`
(common_functions.cpp:733-814).  The type assertions on the XmlRpc values
are rendered by the typed `RawBundle` input; the only remaining failure is
the standalone/bundle size cross-check. -/
def parseTagBundles (reg : List StandaloneTagDescription)
    (tag_bundles : List RawBundle) : Except String (List TagBundleDescription) :=
  parseBundlesFrom reg 0 tag_bundles

/-- All members declared in all bundle layouts of a raw configuration. -/
def allLayoutMembers (tag_bundles : List RawBundle) : List RawMember :=
  (tag_bundles.map RawBundle.layout).flatten

/-- Whether an `Except` value is the error case (the section failed to
load). -/
def isError {α : Type} (x : Except String α) : Bool :=
  match x with
  | Except.error _ => true
  | Except.ok _ => false

/-- Concrete test bundle with a single member of id 1. -/
def bW1 : TagBundleDescription := ⟨"B1", [⟨1, 1, Mat44.eye⟩]⟩

/-- Concrete test bundle whose members include id 1 as well, so that id 1
belongs to two configured bundles. -/
def bW2 : TagBundleDescription := ⟨"B2", [⟨1, 1, Mat44.eye⟩, ⟨4, 2, Mat44.eye⟩]⟩

/-- Concrete test configuration registering both bundles and no standalone
tags. -/
def cfgW : TagDetectorConfig := ⟨[], [bW1, bW2]⟩

/-- Raw configuration matching `cfgW`: member id 1 declared in two bundle
layouts. -/
def rawBundlesW : List RawBundle :=
  [⟨some "B1", [⟨1, 1, none, none, none, none, none, none, none⟩]⟩,
   ⟨some "B2", [⟨1, 1, none, none, none, none, none, none, none⟩,
     ⟨4, 2, none, none, none, none, none, none, none⟩]⟩]

/-- Concrete test detection of the shared id 1. -/
def dW : Det := ⟨1, M0⟩

lemma get_append_len (k t : List Det) (d : Det)
    (h : k.length < (k ++ d :: t).length) :
    (k ++ d :: t).get ⟨k.length, h⟩ = d := by
  rw [List.get_eq_getElem, List.getElem_append_right (Nat.le_refl _)]
  simp

lemma get_append_len_succ (k t : List Det) (d e : Det)
    (h : k.length + 1 < (k ++ d :: e :: t).length) :
    (k ++ d :: e :: t).get ⟨k.length + 1, h⟩ = e := by
  rw [List.get_eq_getElem,
    List.getElem_append_right (Nat.le_succ_of_le (Nat.le_refl _))]
  simp

lemma eraseIdx_append_len (k t : List Det) (d : Det) :
    (k ++ d :: t).eraseIdx k.length = k ++ t := by
  rw [List.eraseIdx_append_of_length_le (Nat.le_refl _)]
  simp

lemma nextId_append_last (k : List Det) (d : Det) :
    nextId (k ++ [d]) k.length = -1 := by
  have : ¬ (k.length + 1 < (k ++ [d]).length) := by simp
  simp [nextId, this]

lemma nextId_append_two (k t : List Det) (d e : Det) :
    nextId (k ++ d :: e :: t) k.length = e.id := by
  have h : k.length + 1 < (k ++ d :: e :: t).length := by simp
  simp only [nextId, dif_pos h]
  rw [get_append_len_succ]

lemma rdLoop_succ_lt (fuel : ℕ) (arr : List Det) (count : ℕ) (dup : Bool)
    (hc : count < arr.length) :
    rdLoop (fuel + 1) arr count dup =
      if (arr.get ⟨count, hc⟩).id = nextId arr count ∨
          ((arr.get ⟨count, hc⟩).id ≠ nextId arr count ∧ dup) then
        if (arr.get ⟨count, hc⟩).id ≠ nextId arr count then
          rdLoop fuel (arr.eraseIdx count) count false
        else
          rdLoop fuel (arr.eraseIdx count) count true
      else
        rdLoop fuel arr (count + 1) dup := by
  simp [rdLoop, hc]

lemma rdLoop_succ_ge (fuel : ℕ) (arr : List Det) (count : ℕ) (dup : Bool)
    (hc : ¬ count < arr.length) :
    rdLoop (fuel + 1) arr count dup = some arr := by
  simp [rdLoop, hc]

/-- The fueled loop of `removeDuplicates`, started at cursor `kept.length`
on the array `kept ++ rest`, terminates (returns `some`) given fuel
`2·|rest| + 1`, leaves `kept` untouched and rewrites `rest` to
`scan dup rest`.  Every loop iteration either removes one element at the
cursor or advances the cursor, so the measure `2·(length) − count`
strictly decreases; the fuel bound makes this explicit. -/
lemma rdLoop_eq_scan (rest : List Det) : ∀ (kept : List Det) (dup : Bool)
    (fuel : ℕ), 2 * rest.length + 1 ≤ fuel →
    rdLoop fuel (kept ++ rest) kept.length dup = some (kept ++ scan dup rest) := by
  induction rest with
  | nil =>
    intro kept dup fuel hf
    match fuel, hf with
    | fuel + 1, _ =>
      have hc : ¬ (kept.length < (kept ++ ([] : List Det)).length) := by simp
      rw [rdLoop_succ_ge fuel _ _ _ hc]
      simp [scan]
  | cons d t ih =>
    intro kept dup fuel hf
    match fuel, hf with
    | fuel + 1, hf =>
      have hc : kept.length < (kept ++ d :: t).length := by simp
      rw [rdLoop_succ_lt fuel _ _ _ hc, get_append_len kept t d hc]
      cases t with
      | nil =>
        rw [nextId_append_last kept d]
        have hfuel : 2 * ([] : List Det).length + 1 ≤ fuel := by
          simp only [List.length_nil, List.length_cons] at hf ⊢
          omega
        have ihT := ih kept true fuel hfuel
        have ihF := ih kept false fuel hfuel
        have ihK := ih (kept ++ [d]) dup fuel hfuel
        simp only [List.append_nil, scan] at ihT ihF ihK
        by_cases hd : d.id = (-1 : ℤ)
        · -- the sentinel collides with the id of the last detection:
          -- the detection is removed although it may be unique
          rw [if_pos (Or.inl hd), if_neg (by simp [hd]), eraseIdx_append_len]
          simp only [List.append_nil]
          rw [ihT]
          simp [scan, hd]
        · by_cases hdup : dup
          · rw [if_pos (Or.inr ⟨hd, hdup⟩), if_pos hd, eraseIdx_append_len]
            simp only [List.append_nil]
            rw [ihF]
            simp [scan, hd, hdup]
          · rw [if_neg (by simp [hd, hdup])]
            rw [show kept.length + 1 = (kept ++ [d]).length by simp]
            rw [ihK]
            simp [scan, hd, hdup]
      | cons e t2 =>
        rw [nextId_append_two kept t2 d e]
        have hfuel : 2 * (e :: t2).length + 1 ≤ fuel := by
          simp only [List.length_cons] at hf ⊢
          omega
        by_cases hde : d.id = e.id
        · rw [if_pos (Or.inl hde), if_neg (by simp [hde]), eraseIdx_append_len]
          rw [ih kept true fuel hfuel]
          simp [scan, hde]
        · by_cases hdup : dup
          · rw [if_pos (Or.inr ⟨hde, hdup⟩), if_pos hde, eraseIdx_append_len]
            rw [ih kept false fuel hfuel]
            simp [scan, hde, hdup]
          · rw [if_neg (by simp [hde, hdup])]
            rw [show kept.length + 1 = (kept ++ [d]).length by simp]
            have ihK := ih (kept ++ [d]) dup fuel hfuel
            rw [List.append_assoc, List.singleton_append] at ihK
            rw [ihK]
            simp [scan, hde, hdup]

/-- Specialisation of `rdLoop_eq_scan` to the loop entry state. -/
lemma rdLoop_zero_eq_scan (l : List Det) (dup : Bool) :
    rdLoop (2 * l.length + 1) l 0 dup = some (scan dup l) := by
  have h := rdLoop_eq_scan l [] dup (2 * l.length + 1) (Nat.le_refl _)
  simpa using h

/-- The scan of `removeDuplicates` computed functionally. -/
lemma removeDuplicates_eq_scan (l : List Det) :
    removeDuplicates l = scan false (sortById l) := by
  unfold removeDuplicates
  have hlen : (sortById l).length = l.length :=
    (List.perm_insertionSort idLe l).length_eq
  rw [show 2 * l.length + 1 = 2 * (sortById l).length + 1 by rw [hlen]]
  rw [rdLoop_zero_eq_scan]
  rfl

/-- With the duplicate flag set, the scan drops the whole leading run of
equal-id detections and then continues with the flag cleared. -/
lemma scan_true_eq (t : List Det) : ∀ (d : Det),
    scan true (d :: t) = scan false (t.dropWhile (fun e => e.id == d.id)) := by
  induction t with
  | nil => intro d; simp [scan]
  | cons e t2 ih =>
    intro d
    by_cases hde : d.id = e.id
    · rw [show scan true (d :: e :: t2) = scan true (e :: t2) by simp [scan, hde]]
      rw [ih e]
      have : (e :: t2).dropWhile (fun x => x.id == d.id) =
          t2.dropWhile (fun x => x.id == d.id) := by
        rw [List.dropWhile_cons_of_pos (by simp [hde])]
      rw [this, hde]
    · rw [show scan true (d :: e :: t2) = scan false (e :: t2) by simp [scan, hde]]
      rw [List.dropWhile_cons_of_neg (by simp; exact fun h => hde h.symm)]

/-- In a list sorted ascending by id whose elements all have id at least
`x0`, everything surviving `dropWhile (id == x0)` has id strictly greater
than `x0`. -/
lemma mem_dropWhile_sorted_gt (x0 : ℤ) : ∀ (t : List Det),
    t.Pairwise idLe → (∀ x ∈ t, x0 ≤ x.id) →
    ∀ x ∈ t.dropWhile (fun e => e.id == x0), x0 < x.id := by
  intro t
  induction t with
  | nil => intro _ _ x hx; simp at hx
  | cons a t2 ih =>
    intro hsort hbound x hx
    by_cases ha : a.id = x0
    · rw [List.dropWhile_cons_of_pos (by simp [ha])] at hx
      exact ih (List.Pairwise.sublist (List.sublist_cons_self a t2) hsort)
        (fun y hy => hbound y (List.mem_cons_of_mem a hy)) x hx
    · rw [List.dropWhile_cons_of_neg (by simp [ha])] at hx
      have hax0 : x0 < a.id :=
        lt_of_le_of_ne (hbound a (List.mem_cons_self a t2)) (Ne.symm ha)
      rcases List.mem_cons.mp hx with rfl | hx2
      · exact hax0
      · exact lt_of_lt_of_le hax0 ((List.pairwise_cons.mp hsort).1 x hx2)

/-- Master characterisation: on a list sorted ascending by id in which no
detection carries the sentinel id `-1`, the scan keeps exactly the
detections whose id occurs exactly once, in order. -/
lemma scan_false_sorted : ∀ (n : ℕ) (l : List Det), l.length ≤ n →
    l.Pairwise idLe → (∀ d ∈ l, d.id ≠ -1) →
    scan false l = l.filter (fun d => l.countP (fun e => e.id == d.id) == 1) := by
  intro n
  induction n with
  | zero =>
    intro l hl _ _
    have : l = [] := List.eq_nil_of_length_eq_zero (Nat.le_zero.mp hl)
    subst this
    simp [scan]
  | succ n ih =>
    intro l hl hsort hneg
    match l with
    | [] => simp [scan]
    | [d] =>
      have hd1 : d.id ≠ -1 := hneg d (by simp)
      simp [scan, hd1, List.countP_cons]
    | d1 :: d2 :: t =>
      have hsort2 : (d2 :: t).Pairwise idLe := (List.pairwise_cons.mp hsort).2
      have hbound1 : ∀ x ∈ d2 :: t, d1.id ≤ x.id :=
        (List.pairwise_cons.mp hsort).1
      by_cases hde : d1.id = d2.id
      · -- a duplicate run starts at the cursor: the whole run is dropped
        have hscan : scan false (d1 :: d2 :: t) = scan true (d2 :: t) := by
          simp [scan, hde]
        rw [hscan, scan_true_eq t d2, ← hde]
        have ht : t.takeWhile (fun e => e.id == d1.id) ++
            t.dropWhile (fun e => e.id == d1.id) = t :=
          List.takeWhile_append_dropWhile (fun e => e.id == d1.id) t
        have hrsub : (t.dropWhile (fun e => e.id == d1.id)).Sublist t :=
          List.dropWhile_sublist _
        have hrsubl : (t.dropWhile (fun e => e.id == d1.id)).Sublist
            (d1 :: d2 :: t) :=
          hrsub.trans ((List.sublist_cons_self d2 t).trans
            (List.sublist_cons_self d1 (d2 :: t)))
        have hrlen : (t.dropWhile (fun e => e.id == d1.id)).length ≤ n := by
          have h1 := hrsub.length_le
          simp only [List.length_cons] at hl
          omega
        have hrsort : (t.dropWhile (fun e => e.id == d1.id)).Pairwise idLe :=
          hsort.sublist hrsubl
        have hrneg : ∀ d ∈ t.dropWhile (fun e => e.id == d1.id), d.id ≠ -1 :=
          fun d hd => hneg d (hrsubl.subset hd)
        rw [ih _ hrlen hrsort hrneg]
        have hgt : ∀ x ∈ t.dropWhile (fun e => e.id == d1.id), d1.id < x.id :=
          mem_dropWhile_sorted_gt d1.id t
            (hsort2.sublist (List.sublist_cons_self d2 t))
            (fun x hx => hbound1 x (List.mem_cons_of_mem d2 hx))
        have hw : ∀ e ∈ t.takeWhile (fun x => x.id == d1.id), e.id = d1.id :=
          fun e he => by simpa using List.mem_takeWhile_imp he
        have hsplit : d1 :: d2 :: t =
            (d1 :: d2 :: t.takeWhile (fun e => e.id == d1.id)) ++
              t.dropWhile (fun e => e.id == d1.id) := by
          simp only [List.cons_append]
          rw [ht]
        rw [hsplit, List.filter_append]
        have hnilpart : (d1 :: d2 :: t.takeWhile (fun e => e.id == d1.id)).filter
            (fun d => (((d1 :: d2 :: t.takeWhile (fun e => e.id == d1.id)) ++
              t.dropWhile (fun e => e.id == d1.id)).countP
                (fun e => e.id == d.id) == 1)) = [] := by
          rw [List.filter_eq_nil_iff]
          intro e he
          have heid : e.id = d1.id := by
            rcases List.mem_cons.mp he with rfl | he2
            · rfl
            rcases List.mem_cons.mp he2 with rfl | he3
            · exact hde.symm
            · exact hw e he3
          have hcount : 2 ≤ ((d1 :: d2 :: t.takeWhile (fun e => e.id == d1.id)) ++
              t.dropWhile (fun e => e.id == d1.id)).countP
                (fun x => x.id == e.id) := by
            simp only [List.cons_append]
            rw [List.countP_cons_of_pos (fun x : Det => x.id == e.id) _
              (by simp [heid])]
            rw [List.countP_cons_of_pos (fun x : Det => x.id == e.id) _
              (by simp [heid, hde.symm])]
            omega
          simp only [beq_iff_eq]
          omega
        rw [hnilpart, List.nil_append]
        refine (List.filter_congr ?_).symm
        intro x hx
        have hxgt : d1.id < x.id := hgt x hx
        have hzero : (d1 :: d2 :: t.takeWhile (fun e => e.id == d1.id)).countP
            (fun e => e.id == x.id) = 0 := by
          rw [List.countP_eq_zero]
          intro e he
          have heid : e.id = d1.id := by
            rcases List.mem_cons.mp he with rfl | he2
            · rfl
            rcases List.mem_cons.mp he2 with rfl | he3
            · exact hde.symm
            · exact hw e he3
          simp [heid]
          omega
        rw [List.countP_append, hzero, Nat.zero_add]
      · -- distinct adjacent ids: the cursor element is kept
        have hscan : scan false (d1 :: d2 :: t) = d1 :: scan false (d2 :: t) := by
          simp [scan, hde]
        have hlen2 : (d2 :: t).length ≤ n := by
          simp only [List.length_cons] at hl ⊢
          omega
        have hneg2 : ∀ d ∈ d2 :: t, d.id ≠ -1 :=
          fun d hd => hneg d (List.mem_cons_of_mem d1 hd)
        rw [hscan, ih (d2 :: t) hlen2 hsort2 hneg2]
        have hgt : ∀ x ∈ d2 :: t, d1.id < x.id := by
          intro x hx
          exact lt_of_le_of_ne (hbound1 x hx) (by
            rcases List.mem_cons.mp hx with rfl | hx2
            · exact hde
            · have h1 : d1.id < d2.id :=
                lt_of_le_of_ne (hbound1 d2 (List.mem_cons_self d2 t)) hde
              have h2 : d2.id ≤ x.id := (List.pairwise_cons.mp hsort2).1 x hx2
              omega)
        have hzero : (d2 :: t).countP (fun e => e.id == d1.id) = 0 := by
          rw [List.countP_eq_zero]
          intro e he
          have := hgt e he
          simp
          omega
        have hd1keep : ((d1 :: d2 :: t).countP (fun e => e.id == d1.id) == 1) = true := by
          rw [List.countP_cons, hzero]
          simp
        have hsplit2 : List.filter
            (fun d => List.countP (fun e => e.id == d.id) (d1 :: d2 :: t) == 1)
            (d1 :: d2 :: t) = d1 :: List.filter
            (fun d => List.countP (fun e => e.id == d.id) (d1 :: d2 :: t) == 1)
            (d2 :: t) := List.filter_cons_of_pos hd1keep
        rw [hsplit2]
        congr 1
        refine (List.filter_congr ?_).symm
        intro x hx
        have hxgt : d1.id < x.id := hgt x hx
        rw [List.countP_cons]
        have h1 : (d1.id == x.id) = false := by
          simp
          omega
        rw [h1]
        simp

lemma sortById_sorted (l : List Det) : (sortById l).Pairwise idLe :=
  List.sorted_insertionSort idLe l

lemma sortById_perm (l : List Det) : List.Perm (sortById l) l :=
  List.perm_insertionSort idLe l

/-- Characterisation of `removeDuplicates` when no detection carries the
sentinel id `-1`: it returns the input sorted by id, restricted to the
detections whose id occurs exactly once. -/
lemma removeDuplicates_eq_filter (l : List Det) (hneg : ∀ d ∈ l, d.id ≠ -1) :
    removeDuplicates l =
      (sortById l).filter (fun d => l.countP (fun e => e.id == d.id) == 1) := by
  rw [removeDuplicates_eq_scan]
  rw [scan_false_sorted (sortById l).length (sortById l) (Nat.le_refl _)
    (sortById_sorted l) (fun d hd => hneg d ((sortById_perm l).subset hd))]
  refine List.filter_congr ?_
  intro x _
  rw [(sortById_perm l).countP_eq]

/-- In a list of detections whose ids are pairwise distinct, every id
occurs exactly once. -/
lemma countP_id_eq_one_of_nodup (l : List Det) (hnodup : (l.map Det.id).Nodup)
    (x : Det) (hx : x ∈ l) : l.countP (fun e => e.id == x.id) = 1 := by
  have hmem : x.id ∈ l.map Det.id := List.mem_map_of_mem Det.id hx
  have hcount : (l.map Det.id).count x.id = 1 :=
    List.count_eq_one_of_mem hnodup hmem
  have heq : (l.map Det.id).count x.id = l.countP (fun e => e.id == x.id) := by
    rw [List.count, List.countP_map]
    rfl
  rw [← heq, hcount]

/-- Ids in the output of `removeDuplicates` are pairwise distinct, provided
no input id collides with the `-1` sentinel. -/
lemma removeDuplicates_ids_nodup (l : List Det) (hneg : ∀ d ∈ l, d.id ≠ -1) :
    ((removeDuplicates l).map Det.id).Nodup := by
  rw [removeDuplicates_eq_filter l hneg]
  rw [List.nodup_iff_count_le_one]
  intro a
  by_contra hcon
  push_neg at hcon
  have hcnt : 2 ≤ (((sortById l).filter
      (fun d => l.countP (fun e => e.id == d.id) == 1)).map Det.id).count a := hcon
  have heq : (((sortById l).filter
      (fun d => l.countP (fun e => e.id == d.id) == 1)).map Det.id).count a =
      ((sortById l).filter (fun d => l.countP (fun e => e.id == d.id) == 1)).countP
        (fun e => e.id == a) := by
    rw [List.count, List.countP_map]
    rfl
  rw [heq] at hcnt
  have hle : ((sortById l).filter (fun d => l.countP (fun e => e.id == d.id) == 1)).countP
      (fun e => e.id == a) ≤ (sortById l).countP (fun e => e.id == a) :=
    (List.filter_sublist _).countP_le _
  have hex : ∃ d ∈ (sortById l).filter
      (fun d => l.countP (fun e => e.id == d.id) == 1), (d.id == a) = true := by
    refine List.countP_pos_iff.mp ?_
    omega
  obtain ⟨d, hdmem, hda⟩ := hex
  have hda2 : d.id = a := by simpa using hda
  have hP : (l.countP (fun e => e.id == d.id) == 1) = true :=
    (List.mem_filter.mp hdmem).2
  have hP2 : l.countP (fun e => e.id == d.id) = 1 := by simpa using hP
  have hsame : (sortById l).countP (fun e => e.id == a) =
      l.countP (fun e => e.id == d.id) := by
    rw [(sortById_perm l).countP_eq, hda2]
  omega

/-- Claim C10: the `while (true)` loop of `removeDuplicates` terminates on
every finite input detection sequence.  With the loop embedded as the fueled
function `rdLoop`, fuel `2·n + 1` (the initial value of the decreasing
measure `2·(array size) − cursor`, plus one for the final exit test) always
suffices for the loop, as invoked by `removeDuplicates` on the sorted array,
to reach its exit condition and return a result. -/
theorem claim_C10_loop_terminates (l : List Det) :
    ∃ r, rdLoop (2 * l.length + 1) (sortById l) 0 false = some r := by
  refine ⟨scan false (sortById l), ?_⟩
  have hlen : (sortById l).length = l.length := (sortById_perm l).length_eq
  rw [show 2 * l.length + 1 = 2 * (sortById l).length + 1 by rw [hlen]]
  exact rdLoop_zero_eq_scan (sortById l) false

/-- Claim C2 (amended): if all input ids are pairwise distinct AND no id
equals `-1`, then `removeDuplicates` returns the input unchanged in value:
the output is a permutation of the input (hence set-equal) and its ids are
pairwise distinct.  The amendment excludes id `-1`, which collides with the
loop sentinel `id_next = -1` (common_functions.cpp:432); see the
counterexample. -/
theorem claim_C2_amended (l : List Det)
    (hnodup : (l.map Det.id).Nodup) (hneg : ∀ d ∈ l, d.id ≠ -1) :
    List.Perm (removeDuplicates l) l ∧
      ((removeDuplicates l).map Det.id).Nodup := by
  have hfix : removeDuplicates l = sortById l := by
    rw [removeDuplicates_eq_filter l hneg]
    refine List.filter_eq_self.mpr ?_
    intro a ha
    have h1 := countP_id_eq_one_of_nodup l hnodup a ((sortById_perm l).subset ha)
    simp [h1]
  constructor
  · rw [hfix]
    exact sortById_perm l
  · rw [hfix]
    exact ((sortById_perm l).map Det.id).nodup_iff.mpr hnodup

/-- Claim C2 as stated (quantified over all integer ids, including negative
ones) is false: the single detection with id `-1` has pairwise-distinct ids,
yet `removeDuplicates` deletes it — the sorted array's last element is
compared against the sentinel `id_next = -1` and wrongly classified as a
duplicate — so the output is not set-equal to the input. -/
theorem claim_C2_counterexample :
    (([⟨-1, M0⟩] : List Det).map Det.id).Nodup ∧
      removeDuplicates [⟨-1, M0⟩] = [] ∧
      ¬ List.Perm (removeDuplicates [⟨-1, M0⟩]) [⟨-1, M0⟩] := by
  decide

/-- Concrete instance of `claim_C2_amended` with both hypotheses
discharged. -/
theorem claim_C2_witness :
    ((([⟨3, M0⟩, ⟨5, M0⟩] : List Det).map Det.id).Nodup ∧
      (∀ d ∈ ([⟨3, M0⟩, ⟨5, M0⟩] : List Det), d.id ≠ -1)) ∧
      (List.Perm (removeDuplicates [⟨3, M0⟩, ⟨5, M0⟩]) [⟨3, M0⟩, ⟨5, M0⟩] ∧
        ((removeDuplicates [⟨3, M0⟩, ⟨5, M0⟩]).map Det.id).Nodup) :=
  ⟨⟨by decide, by decide⟩, claim_C2_amended _ (by decide) (by decide)⟩

/-- An id that occurs at least twice in the input never has count one. -/
lemma countP_ne_one_of_two_le (l : List Det) (x : ℤ)
    (hN : 2 ≤ l.countP (fun d => d.id == x)) (d : Det) (hdx : d.id = x) :
    ¬ l.countP (fun e => e.id == d.id) = 1 := by
  rw [hdx]
  omega

/-- An id distinct from the duplicated id `x` occurs exactly once in the
input, when the non-`x` detections have pairwise-distinct ids. -/
lemma countP_eq_one_of_ne (l : List Det) (x : ℤ)
    (hM : ((l.filter (fun d => d.id != x)).map Det.id).Nodup)
    (d : Det) (hd : d ∈ l) (hdx : d.id ≠ x) :
    l.countP (fun e => e.id == d.id) = 1 := by
  have h1 : l.countP (fun e => e.id == d.id) =
      l.countP (fun e => (e.id == d.id) && (e.id != x)) := by
    refine List.countP_congr ?_
    intro a _
    constructor
    · intro ha
      have ha2 : a.id = d.id := by simpa using ha
      simp [ha2, hdx]
    · intro ha
      simp at ha
      simp [ha.1]
  have h2 : l.countP (fun e => (e.id == d.id) && (e.id != x)) =
      (l.filter (fun e => e.id != x)).countP (fun e => e.id == d.id) :=
    (List.countP_filter _ _ _).symm
  have h3 : d ∈ l.filter (fun e => e.id != x) :=
    List.mem_filter.mpr ⟨hd, by simp [hdx]⟩
  rw [h1, h2]
  exact countP_id_eq_one_of_nodup _ hM d h3

/-- Claim C1 (amended): in a frame where one id `x` occurs `N ≥ 2` times and
the other `M` detections have pairwise-distinct ids different from `x`, and
no detection carries the sentinel id `-1`, `removeDuplicates` deletes every
copy of `x` and keeps everything else: the output has exactly `M` entries
and none of them bears id `x` (this also covers the run of `x` lying at the
end of the sorted sequence).  The amendment excludes id `-1`, which collides
with the loop sentinel `id_next = -1`; see the counterexample. -/
theorem claim_C1_amended (l : List Det) (x : ℤ)
    (hneg : ∀ d ∈ l, d.id ≠ -1)
    (hN : 2 ≤ l.countP (fun d => d.id == x))
    (hM : ((l.filter (fun d => d.id != x)).map Det.id).Nodup) :
    (removeDuplicates l).length = (l.filter (fun d => d.id != x)).length ∧
      ∀ d ∈ removeDuplicates l, d.id ≠ x := by
  constructor
  · rw [removeDuplicates_eq_filter l hneg]
    rw [← List.countP_eq_length_filter, ← List.countP_eq_length_filter]
    rw [(sortById_perm l).countP_eq]
    refine List.countP_congr ?_
    intro d hd
    constructor
    · intro hP
      have hP2 : l.countP (fun e => e.id == d.id) = 1 := by simpa using hP
      by_contra hdx
      simp at hdx
      exact countP_ne_one_of_two_le l x hN d hdx hP2
    · intro hdx
      have hdx2 : d.id ≠ x := by simpa using hdx
      have := countP_eq_one_of_ne l x hM d hd hdx2
      simp [this]
  · intro d hd
    rw [removeDuplicates_eq_filter l hneg] at hd
    have hP : (l.countP (fun e => e.id == d.id) == 1) = true :=
      (List.mem_filter.mp hd).2
    have hP2 : l.countP (fun e => e.id == d.id) = 1 := by simpa using hP
    intro hdx
    exact countP_ne_one_of_two_le l x hN d hdx hP2

/-- Claim C1 as stated (for arbitrary integer ids) is false: with two
detections of id `-5` and one unique detection of id `-1`, the `M = 1`
distinct-id detection should survive, but the sentinel `id_next = -1`
collides with the real id `-1` at the end of the sorted sequence and the
output is empty instead of having one entry. -/
theorem claim_C1_counterexample :
    2 ≤ ([⟨-5, M0⟩, ⟨-5, M0⟩, ⟨-1, M0⟩] : List Det).countP
        (fun d => d.id == (-5 : ℤ)) ∧
      ((([⟨-5, M0⟩, ⟨-5, M0⟩, ⟨-1, M0⟩] : List Det).filter
        (fun d => d.id != (-5 : ℤ))).map Det.id).Nodup ∧
      ¬ ((removeDuplicates [⟨-5, M0⟩, ⟨-5, M0⟩, ⟨-1, M0⟩]).length =
        (([⟨-5, M0⟩, ⟨-5, M0⟩, ⟨-1, M0⟩] : List Det).filter
          (fun d => d.id != (-5 : ℤ))).length) := by
  decide

/-- Concrete instance of `claim_C1_amended` (two copies of id 5, one other
detection of id 3) with all hypotheses discharged. -/
theorem claim_C1_witness :
    ((∀ d ∈ ([⟨5, M0⟩, ⟨5, M0⟩, ⟨3, M0⟩] : List Det), d.id ≠ -1) ∧
      2 ≤ ([⟨5, M0⟩, ⟨5, M0⟩, ⟨3, M0⟩] : List Det).countP
        (fun d => d.id == (5 : ℤ)) ∧
      ((([⟨5, M0⟩, ⟨5, M0⟩, ⟨3, M0⟩] : List Det).filter
        (fun d => d.id != (5 : ℤ))).map Det.id).Nodup) ∧
      ((removeDuplicates [⟨5, M0⟩, ⟨5, M0⟩, ⟨3, M0⟩]).length =
        (([⟨5, M0⟩, ⟨5, M0⟩, ⟨3, M0⟩] : List Det).filter
          (fun d => d.id != (5 : ℤ))).length ∧
        ∀ d ∈ removeDuplicates [⟨5, M0⟩, ⟨5, M0⟩, ⟨3, M0⟩], d.id ≠ 5) :=
  ⟨⟨by decide, by decide, by decide⟩,
    claim_C1_amended _ 5 (by decide) (by decide) (by decide)⟩

/-- Claim C9 (amended): `removeDuplicates` is idempotent provided no
detection carries the sentinel id `-1`.  The amendment is forced by the
counterexample below, where the sentinel deletes a surviving unique id `-1`
only on the second pass. -/
theorem claim_C9_amended (l : List Det) (hneg : ∀ d ∈ l, d.id ≠ -1) :
    removeDuplicates (removeDuplicates l) = removeDuplicates l := by
  have hrsub : (removeDuplicates l).Sublist (sortById l) := by
    rw [removeDuplicates_eq_filter l hneg]
    exact List.filter_sublist _
  have hrsort : (removeDuplicates l).Pairwise idLe := by
    rw [removeDuplicates_eq_filter l hneg]
    exact (sortById_sorted l).filter _
  have hrneg : ∀ d ∈ removeDuplicates l, d.id ≠ -1 :=
    fun d hd => hneg d ((sortById_perm l).subset (hrsub.subset hd))
  have hrnodup : ((removeDuplicates l).map Det.id).Nodup :=
    removeDuplicates_ids_nodup l hneg
  rw [removeDuplicates_eq_filter (removeDuplicates l) hrneg]
  have hsorteq : sortById (removeDuplicates l) = removeDuplicates l :=
    List.Sorted.insertionSort_eq hrsort
  rw [hsorteq]
  refine List.filter_eq_self.mpr ?_
  intro a ha
  have h1 := countP_id_eq_one_of_nodup (removeDuplicates l) hrnodup a ha
  simp [h1]

/-- Claim C9 as stated is false: on `[-1, 5, 5]` one application of
`removeDuplicates` keeps the unique id `-1` (it is not last in the sorted
order), but a second application deletes it via the sentinel collision, so
the two results differ. -/
theorem claim_C9_counterexample :
    removeDuplicates (removeDuplicates [⟨-1, M0⟩, ⟨5, M0⟩, ⟨5, M0⟩]) ≠
      removeDuplicates [⟨-1, M0⟩, ⟨5, M0⟩, ⟨5, M0⟩] := by
  decide

/-- Concrete instance of `claim_C9_amended` with the hypothesis
discharged. -/
theorem claim_C9_witness :
    (∀ d ∈ ([⟨7, M0⟩, ⟨7, M0⟩, ⟨2, M0⟩] : List Det), d.id ≠ -1) ∧
      removeDuplicates (removeDuplicates [⟨7, M0⟩, ⟨7, M0⟩, ⟨2, M0⟩]) =
        removeDuplicates [⟨7, M0⟩, ⟨7, M0⟩, ⟨2, M0⟩] :=
  ⟨by decide, claim_C9_amended _ (by decide)⟩

/-- Claim C4: called with `s = size/2`, `addObjectPoints` appends exactly
the four corners of a `size`×`size` square in the XY-plane, at local
coordinates `(-s,-s,0), (s,-s,0), (s,s,0), (-s,s,0)` in that order, each
mapped through the offset transform's rotation block and translation
column; with the identity offset the appended points are exactly those
corner coordinates. -/
theorem claim_C4_object_points (size : ℚ) (T : Mat44) (pts : List Vec3)
    (hpos : 0 < size) :
    addObjectPoints (size / 2) T pts =
      pts ++ [T.applyAffine ⟨-(size / 2), -(size / 2), 0⟩,
        T.applyAffine ⟨size / 2, -(size / 2), 0⟩,
        T.applyAffine ⟨size / 2, size / 2, 0⟩,
        T.applyAffine ⟨-(size / 2), size / 2, 0⟩] ∧
    addObjectPoints (size / 2) Mat44.eye pts =
      pts ++ [⟨-(size / 2), -(size / 2), 0⟩, ⟨size / 2, -(size / 2), 0⟩,
        ⟨size / 2, size / 2, 0⟩, ⟨-(size / 2), size / 2, 0⟩] := by
  constructor <;>
    simp [addObjectPoints, Mat44.minorMul, Mat44.applyAffine, Mat44.eye]

/-- Concrete instance of `claim_C4_object_points` at `size = 1`, identity
offset, empty vector, with the positivity hypothesis discharged. -/
theorem claim_C4_witness :
    (0 : ℚ) < 1 ∧
      (addObjectPoints ((1 : ℚ) / 2) Mat44.eye [] =
        [] ++ [Mat44.eye.applyAffine ⟨-((1 : ℚ) / 2), -((1 : ℚ) / 2), 0⟩,
          Mat44.eye.applyAffine ⟨(1 : ℚ) / 2, -((1 : ℚ) / 2), 0⟩,
          Mat44.eye.applyAffine ⟨(1 : ℚ) / 2, (1 : ℚ) / 2, 0⟩,
          Mat44.eye.applyAffine ⟨-((1 : ℚ) / 2), (1 : ℚ) / 2, 0⟩] ∧
        addObjectPoints ((1 : ℚ) / 2) Mat44.eye [] =
          [] ++ [⟨-((1 : ℚ) / 2), -((1 : ℚ) / 2), 0⟩,
            ⟨(1 : ℚ) / 2, -((1 : ℚ) / 2), 0⟩,
            ⟨(1 : ℚ) / 2, (1 : ℚ) / 2, 0⟩,
            ⟨-((1 : ℚ) / 2), (1 : ℚ) / 2, 0⟩]) :=
  ⟨by norm_num, claim_C4_object_points 1 Mat44.eye [] (by norm_num)⟩

/-- Claim C5: `addImagePoints` appends exactly four 2D points, the
projections of the tag-local coordinates `(-1,1), (1,1), (1,-1), (-1,-1)`
(in that order) through the detection's homography; and those coordinates
are, index for index, the corners produced by `addObjectPoints` for the unit
half-size square with the Y sign flipped (the decoder's tag frame has its
y-axis pointing down), so the two sequences are correspondence-aligned. -/
theorem claim_C5_image_points (d : Det) (pts : List Point2) :
    addImagePoints d pts = pts ++
      [homographyProject d.H (-1) 1, homographyProject d.H 1 1,
        homographyProject d.H 1 (-1), homographyProject d.H (-1) (-1)] ∧
    (addObjectPoints 1 Mat44.eye []).map (fun p => (p.x, -p.y)) =
      (List.finRange 4).map (fun i => (tagX i, tagY i)) := by
  constructor
  · rfl
  · simp [addObjectPoints, Mat44.minorMul, Mat44.eye, tagX, tagY,
      List.finRange]

lemma isError_iff {α : Type} (x : Except String α) :
    (∃ e, x = Except.error e) ↔ isError x = true := by
  cases x <;> simp [isError]

lemma memberMismatch_iff (reg : List StandaloneTagDescription)
    (m : RawMember) :
    memberMismatch reg m = true ↔
      ∃ desc, findStandaloneTagDescription reg m.id = some desc ∧
        m.size ≠ desc.size := by
  unfold memberMismatch
  cases h : findStandaloneTagDescription reg m.id <;> simp [h]

lemma isError_parseMembers (reg : List StandaloneTagDescription)
    (ms : List RawMember) :
    isError (parseMembers reg ms) = ms.any (memberMismatch reg) := by
  induction ms with
  | nil => rfl
  | cons m t ih =>
    by_cases hm : memberMismatch reg m
    · simp [parseMembers, hm, isError]
    · simp only [parseMembers, hm, Bool.false_eq_true, if_false,
        List.any_cons]
      cases hrec : parseMembers reg t with
      | error e =>
        rw [hrec] at ih
        simp [isError, ← ih, hm]
      | ok ms2 =>
        rw [hrec] at ih
        simp [isError, ← ih, hm]

lemma isError_parseBundlesFrom (reg : List StandaloneTagDescription) :
    ∀ (bs : List RawBundle) (i : ℕ),
    isError (parseBundlesFrom reg i bs) =
      bs.any (fun rb => rb.layout.any (memberMismatch reg)) := by
  intro bs
  induction bs with
  | nil => intro i; rfl
  | cons rb t ih =>
    intro i
    simp only [parseBundlesFrom, List.any_cons]
    cases hm : parseMembers reg rb.layout with
    | error e =>
      have h1 := isError_parseMembers reg rb.layout
      rw [hm] at h1
      simp [isError, ← h1]
    | ok ms =>
      have h1 := isError_parseMembers reg rb.layout
      rw [hm] at h1
      cases hrec : parseBundlesFrom reg (i + 1) t with
      | error e =>
        have h2 := ih (i + 1)
        rw [hrec] at h2
        simp [isError, ← h2]
      | ok bs2 =>
        have h2 := ih (i + 1)
        rw [hrec] at h2
        simp [isError, ← h1, ← h2]

/-- Claim C6: `parseTagBundles` raises a load-time error for the bundle
section if and only if some declared bundle member whose id also has a
standalone description declares a size different from the standalone one.
No other condition fails the parse, and the check happens entirely at load
time: the parsed `TagBundleDescription`s contain no residual size
information to re-check per frame. -/
theorem claim_C6_size_mismatch_iff (reg : List StandaloneTagDescription)
    (tag_bundles : List RawBundle) :
    (∃ e, parseTagBundles reg tag_bundles = Except.error e) ↔
      ∃ m ∈ allLayoutMembers tag_bundles, ∃ desc,
        findStandaloneTagDescription reg m.id = some desc ∧
          m.size ≠ desc.size := by
  rw [isError_iff, parseTagBundles, isError_parseBundlesFrom]
  constructor
  · intro h
    obtain ⟨rb, hrb, m, hm, hmm⟩ := by
      simpa [List.any_eq_true] using h
    refine ⟨m, ?_, (memberMismatch_iff reg m).mp hmm⟩
    simp only [allLayoutMembers, List.mem_flatten]
    exact ⟨rb.layout, List.mem_map_of_mem RawBundle.layout hrb, hm⟩
  · intro h
    obtain ⟨m, hmem, hdesc⟩ := h
    simp only [allLayoutMembers, List.mem_flatten] at hmem
    obtain ⟨layout, hlay, hm⟩ := hmem
    obtain ⟨rb, hrb, rfl⟩ := List.mem_map.mp hlay
    simp only [List.any_eq_true]
    exact ⟨rb, hrb, m, hm, (memberMismatch_iff reg m).mpr hdesc⟩

lemma bundleFold_no_member (d : Det) (bs : List TagBundleDescription)
    (h : ∀ b ∈ bs, b.isMember d.id = false) :
    ∀ acc, bundleFold d acc bs = acc := by
  induction bs with
  | nil => intro acc; rfl
  | cons b t ih =>
    intro acc
    have hb : b.isMember d.id = false := h b (List.mem_cons_self b t)
    simp only [bundleFold, List.foldl_cons, hb, Bool.false_eq_true, if_false]
    exact ih (fun b2 hb2 => h b2 (List.mem_cons_of_mem b hb2)) acc

/-- A detection that is neither standalone-registered nor a member of any
bundle leaves the whole processing state unchanged. -/
lemma processDetection_skip (cfg : TagDetectorConfig)
    (st : Acc × List AprilTagDetection) (d : Det)
    (hstand : findStandaloneTagDescription cfg.standalone_tag_descriptions
      d.id = none)
    (hbund : ∀ b ∈ cfg.tag_bundle_descriptions, b.isMember d.id = false) :
    processDetection cfg st d = st := by
  simp only [processDetection, hstand]
  rw [bundleFold_no_member d _ hbund]

/-- Claim C8: a surviving detection whose id has no standalone description
and belongs to no configured bundle contributes nothing: it adds no points
to any bundle accumulator and no entry to the detection array, and the
detections before and after it are processed exactly as if it were absent
(the embedding is total, so a detection array is always returned). -/
theorem claim_C8_unrecognized_skipped (cfg : TagDetectorConfig)
    (st : Acc × List AprilTagDetection) (pre post : List Det) (d : Det)
    (hstand : findStandaloneTagDescription cfg.standalone_tag_descriptions
      d.id = none)
    (hbund : ∀ b ∈ cfg.tag_bundle_descriptions, b.isMember d.id = false) :
    (pre ++ d :: post).foldl (processDetection cfg) st =
      (pre ++ post).foldl (processDetection cfg) st := by
  rw [List.foldl_append, List.foldl_append, List.foldl_cons,
    processDetection_skip cfg _ d hstand hbund]

/-- Concrete instance of `claim_C8_unrecognized_skipped`: id 7 is neither
the standalone id 9 nor the bundle member id 2, and the frame around it is
processed as if the rogue detection were absent. -/
theorem claim_C8_witness :
    (findStandaloneTagDescription [⟨9, 1, "tag_9"⟩] (7 : ℤ) = none ∧
      (∀ b ∈ ([⟨"B", [⟨2, 1, Mat44.eye⟩]⟩] : List TagBundleDescription),
        b.isMember (7 : ℤ) = false)) ∧
      ([⟨9, M0⟩, ⟨7, M0⟩, ⟨2, M0⟩] : List Det).foldl
        (processDetection ⟨[⟨9, 1, "tag_9"⟩], [⟨"B", [⟨2, 1, Mat44.eye⟩]⟩]⟩)
        ([], []) =
      ([⟨9, M0⟩, ⟨2, M0⟩] : List Det).foldl
        (processDetection ⟨[⟨9, 1, "tag_9"⟩], [⟨"B", [⟨2, 1, Mat44.eye⟩]⟩]⟩)
        ([], []) :=
  ⟨⟨by decide, by decide⟩,
    claim_C8_unrecognized_skipped
      ⟨[⟨9, 1, "tag_9"⟩], [⟨"B", [⟨2, 1, Mat44.eye⟩]⟩]⟩ ([], [])
      [⟨9, M0⟩] [⟨2, M0⟩] ⟨7, M0⟩ (by decide) (by decide)⟩

lemma lookup_accAppend_self (acc : Acc) (k : String) (ops : List Vec3)
    (ips : List Point2) :
    List.lookup k (accAppend acc k ops ips) =
      some (((List.lookup k acc).getD ([], [])).1 ++ ops,
        ((List.lookup k acc).getD ([], [])).2 ++ ips) := by
  induction acc with
  | nil => simp [accAppend]
  | cons p t ih =>
    obtain ⟨k1, v⟩ := p
    by_cases hk : k1 = k
    · subst hk
      simp [accAppend]
    · have hk2 : (k == k1) = false := by
        simp
        exact fun h => hk h.symm
      simp [accAppend, hk, List.lookup, hk2, ih]

lemma lookup_accAppend_ne (acc : Acc) (k k2 : String) (ops : List Vec3)
    (ips : List Point2) (h : k2 ≠ k) :
    List.lookup k2 (accAppend acc k ops ips) = List.lookup k2 acc := by
  have hbe : (k2 == k) = false := by simp [h]
  induction acc with
  | nil => simp [accAppend, List.lookup, hbe]
  | cons p t ih =>
    obtain ⟨k1, v⟩ := p
    by_cases hk : k1 = k
    · subst hk
      simp [accAppend, List.lookup, hbe]
    · simp [accAppend, hk, List.lookup, ih]

lemma lookup_bundleFold_notin (d : Det) (n : String) :
    ∀ (bs : List TagBundleDescription), (∀ b ∈ bs, b.name ≠ n) →
    ∀ acc, List.lookup n (bundleFold d acc bs) = List.lookup n acc := by
  intro bs
  induction bs with
  | nil => intro _ acc; rfl
  | cons b t ih =>
    intro h acc
    simp only [bundleFold, List.foldl_cons]
    have hstep : List.lookup n (if b.isMember d.id then
        accAppend acc b.name (contribObj b d) (contribImg d) else acc) =
        List.lookup n acc := by
      by_cases hm : b.isMember d.id
      · simp only [hm, if_true]
        exact lookup_accAppend_ne acc b.name n _ _
          (fun he => h b (List.mem_cons_self b t) he.symm)
      · simp [hm]
    rw [show List.foldl (fun acc b => if b.isMember d.id then
        accAppend acc b.name (contribObj b d) (contribImg d) else acc)
        (if b.isMember d.id then
          accAppend acc b.name (contribObj b d) (contribImg d) else acc) t =
        bundleFold d (if b.isMember d.id then
          accAppend acc b.name (contribObj b d) (contribImg d) else acc) t
      from rfl]
    rw [ih (fun b2 hb2 => h b2 (List.mem_cons_of_mem b hb2))]
    exact hstep

/-- Effect of the inner bundle loop on the accumulator entry of one bundle
`b`: when the detection's id belongs to `b`, exactly the four object and
four image points are appended under `b.name`; otherwise the entry is
untouched.  Bundle names must be pairwise distinct for the entry to be
attributable to `b`. -/
lemma lookup_bundleFold (d : Det) (b : TagBundleDescription) :
    ∀ (bs : List TagBundleDescription), b ∈ bs →
    (bs.map TagBundleDescription.name).Nodup →
    ∀ acc, List.lookup b.name (bundleFold d acc bs) =
      if b.isMember d.id then
        some (((List.lookup b.name acc).getD ([], [])).1 ++ contribObj b d,
          ((List.lookup b.name acc).getD ([], [])).2 ++ contribImg d)
      else List.lookup b.name acc := by
  intro bs
  induction bs with
  | nil => intro h; simp at h
  | cons b0 t ih =>
    intro hb hnodup acc
    simp only [bundleFold, List.foldl_cons]
    rcases List.mem_cons.mp hb with rfl | hbt
    · have hnot : ∀ b2 ∈ t, b2.name ≠ b.name := by
        intro b2 hb2 heq
        exact (List.nodup_cons.mp hnodup).1
          (heq ▸ List.mem_map_of_mem TagBundleDescription.name hb2)
      have hrest := lookup_bundleFold_notin d b.name t hnot
      by_cases hmem : b.isMember d.id
      · simp only [hmem, if_true]
        rw [show List.foldl (fun acc b2 => if b2.isMember d.id then
            accAppend acc b2.name (contribObj b2 d) (contribImg d) else acc)
            (accAppend acc b.name (contribObj b d) (contribImg d)) t =
            bundleFold d
              (accAppend acc b.name (contribObj b d) (contribImg d)) t
          from rfl]
        rw [hrest]
        exact lookup_accAppend_self acc b.name _ _
      · simp only [hmem, Bool.false_eq_true, if_false]
        exact hrest acc
    · have hne : b0.name ≠ b.name := by
        intro heq
        exact (List.nodup_cons.mp hnodup).1
          (heq ▸ List.mem_map_of_mem TagBundleDescription.name hbt)
      have hstep : List.lookup b.name (if b0.isMember d.id then
          accAppend acc b0.name (contribObj b0 d) (contribImg d) else acc) =
          List.lookup b.name acc := by
        by_cases hm : b0.isMember d.id
        · simp only [hm, if_true]
          exact lookup_accAppend_ne acc b0.name b.name _ _
            (fun he => hne he.symm)
        · simp [hm]
      rw [show List.foldl (fun acc b => if b.isMember d.id then
          accAppend acc b.name (contribObj b d) (contribImg d) else acc)
          (if b0.isMember d.id then
            accAppend acc b0.name (contribObj b0 d) (contribImg d) else acc)
          t =
          bundleFold d (if b0.isMember d.id then
            accAppend acc b0.name (contribObj b0 d) (contribImg d) else acc)
          t from rfl]
      rw [ih hbt (List.nodup_cons.mp hnodup).2, hstep]

/-- The per-bundle view of the accumulator across the whole detection loop:
folding `processDetection` over the surviving detections updates the entry
of bundle `b` exactly like an option-valued fold that appends the four-point
contributions of the detections whose id belongs to `b`. -/
lemma lookup_detsFold (cfg : TagDetectorConfig) (b : TagBundleDescription)
    (hb : b ∈ cfg.tag_bundle_descriptions)
    (hnodup :
      (cfg.tag_bundle_descriptions.map TagBundleDescription.name).Nodup) :
    ∀ (dets : List Det) (st : Acc × List AprilTagDetection),
      List.lookup b.name (dets.foldl (processDetection cfg) st).1 =
        dets.foldl (fun cur d => if b.isMember d.id then
            some ((cur.getD ([], [])).1 ++ contribObj b d,
              (cur.getD ([], [])).2 ++ contribImg d)
          else cur) (List.lookup b.name st.1) := by
  intro dets
  induction dets with
  | nil => intro st; rfl
  | cons d t ih =>
    intro st
    rw [List.foldl_cons, List.foldl_cons, ih]
    have hacc : (processDetection cfg st d).1 =
        bundleFold d st.1 cfg.tag_bundle_descriptions := by
      unfold processDetection
      cases findStandaloneTagDescription cfg.standalone_tag_descriptions
        d.id <;> rfl
    rw [hacc, lookup_bundleFold d b cfg.tag_bundle_descriptions hb hnodup
      st.1]

lemma contribObj_length (b : TagBundleDescription) (d : Det) :
    (contribObj b d).length = 4 := rfl

lemma contribImg_length (d : Det) : (contribImg d).length = 4 := rfl

lemma optFold_isSome (b : TagBundleDescription) :
    ∀ (dets : List Det) (cur : Option (List Vec3 × List Point2)),
    (dets.foldl (fun cur d => if b.isMember d.id then
        some ((cur.getD ([], [])).1 ++ contribObj b d,
          (cur.getD ([], [])).2 ++ contribImg d)
      else cur) cur).isSome =
      (cur.isSome || dets.any (fun d => b.isMember d.id)) := by
  intro dets
  induction dets with
  | nil => intro cur; simp
  | cons d t ih =>
    intro cur
    rw [List.foldl_cons]
    by_cases hm : b.isMember d.id
    · simp [hm, ih]
    · simp [hm, ih]

lemma optFold_lengths (b : TagBundleDescription) :
    ∀ (dets : List Det) (cur : Option (List Vec3 × List Point2))
    (o : List Vec3) (i : List Point2),
    dets.foldl (fun cur d => if b.isMember d.id then
        some ((cur.getD ([], [])).1 ++ contribObj b d,
          (cur.getD ([], [])).2 ++ contribImg d)
      else cur) cur = some (o, i) →
    o.length = ((cur.getD ([], [])).1).length +
        4 * dets.countP (fun d => b.isMember d.id) ∧
      i.length = ((cur.getD ([], [])).2).length +
        4 * dets.countP (fun d => b.isMember d.id) := by
  intro dets
  induction dets with
  | nil =>
    intro cur o i h
    rw [List.foldl_nil] at h
    subst h
    simp
  | cons d t ih =>
    intro cur o i h
    rw [List.foldl_cons] at h
    by_cases hm : b.isMember d.id
    · rw [if_pos hm] at h
      have := ih _ o i h
      rw [List.countP_cons_of_pos (fun d => b.isMember d.id) t hm]
      simp only [Option.getD_some] at this
      simp only [List.length_append, contribObj_length, contribImg_length]
        at this
      omega
    · rw [if_neg (by simp [hm])] at h
      have := ih _ o i h
      rw [List.countP_cons_of_neg (fun d => b.isMember d.id) t (by simp [hm])]
      omega

/-- Claim C3: for every frame and configured bundle `b` (bundle names
pairwise distinct), the second phase of `detectTags` appends exactly one
detection-array entry for `b` — `bundleEntryFor` yields `some` — if and only
if at least one of `b`'s configured members survives duplicate removal and
is detected; that entry's id and size lists are `b.bundleIds` and
`b.bundleSizes`, i.e. ALL configured members, not only the observed subset;
and the correspondence accumulator passed to the pose solver under `b.name`
holds exactly 4 object points and 4 image points per observed member.  A
bundle with zero observed members has no accumulator entry and yields no
detection-array entry. -/
theorem claim_C3_bundle_entries (cfg : TagDetectorConfig) (raw : List Det)
    (b : TagBundleDescription) (hb : b ∈ cfg.tag_bundle_descriptions)
    (hnodup :
      (cfg.tag_bundle_descriptions.map TagBundleDescription.name).Nodup) :
    ((List.lookup b.name (detectTags cfg raw).2).isSome =
      (removeDuplicates raw).any (fun d => b.isMember d.id)) ∧
    (∀ o i, List.lookup b.name (detectTags cfg raw).2 = some (o, i) →
      o.length = 4 * (removeDuplicates raw).countP (fun d => b.isMember d.id) ∧
      i.length =
        4 * (removeDuplicates raw).countP (fun d => b.isMember d.id)) ∧
    (bundleEntryFor (detectTags cfg raw).2 b =
      if (removeDuplicates raw).any (fun d => b.isMember d.id) then
        some ⟨b.bundleIds, b.bundleSizes⟩
      else none) := by
  have hacc : (detectTags cfg raw).2 =
      ((removeDuplicates raw).foldl (processDetection cfg) ([], [])).1 := rfl
  have hlookup := lookup_detsFold cfg b hb hnodup (removeDuplicates raw)
    ([], [])
  have hsome : (List.lookup b.name (detectTags cfg raw).2).isSome =
      (removeDuplicates raw).any (fun d => b.isMember d.id) := by
    rw [hacc, hlookup]
    rw [optFold_isSome b (removeDuplicates raw) (List.lookup b.name
      (([], []) : Acc × List AprilTagDetection).1)]
    simp
  refine ⟨hsome, ?_, ?_⟩
  · intro o i h
    rw [hacc, hlookup] at h
    have := optFold_lengths b (removeDuplicates raw) _ o i h
    simpa using this
  · rw [bundleEntryFor, hsome]

/-- Concrete instance of `claim_C3_bundle_entries`: a bundle with three
configured members of which one is observed. -/
theorem claim_C3_witness :
    ((⟨"B", [⟨1, 1, Mat44.eye⟩, ⟨2, 1, Mat44.eye⟩, ⟨3, 1, Mat44.eye⟩]⟩ :
        TagBundleDescription) ∈
      (⟨[], [⟨"B", [⟨1, 1, Mat44.eye⟩, ⟨2, 1, Mat44.eye⟩, ⟨3, 1, Mat44.eye⟩]⟩]⟩ :
        TagDetectorConfig).tag_bundle_descriptions ∧
      ((⟨[], [⟨"B", [⟨1, 1, Mat44.eye⟩, ⟨2, 1, Mat44.eye⟩, ⟨3, 1, Mat44.eye⟩]⟩]⟩ :
        TagDetectorConfig).tag_bundle_descriptions.map
          TagBundleDescription.name).Nodup) ∧
      (((List.lookup "B" (detectTags
        ⟨[], [⟨"B", [⟨1, 1, Mat44.eye⟩, ⟨2, 1, Mat44.eye⟩, ⟨3, 1, Mat44.eye⟩]⟩]⟩
        [⟨1, M0⟩]).2).isSome =
        (removeDuplicates [⟨1, M0⟩]).any (fun d =>
          TagBundleDescription.isMember
            ⟨"B", [⟨1, 1, Mat44.eye⟩, ⟨2, 1, Mat44.eye⟩, ⟨3, 1, Mat44.eye⟩]⟩
            d.id)) ∧
      (∀ o i, List.lookup "B" (detectTags
        ⟨[], [⟨"B", [⟨1, 1, Mat44.eye⟩, ⟨2, 1, Mat44.eye⟩, ⟨3, 1, Mat44.eye⟩]⟩]⟩
        [⟨1, M0⟩]).2 = some (o, i) →
        o.length = 4 * (removeDuplicates [⟨1, M0⟩]).countP (fun d =>
          TagBundleDescription.isMember
            ⟨"B", [⟨1, 1, Mat44.eye⟩, ⟨2, 1, Mat44.eye⟩, ⟨3, 1, Mat44.eye⟩]⟩
            d.id) ∧
        i.length = 4 * (removeDuplicates [⟨1, M0⟩]).countP (fun d =>
          TagBundleDescription.isMember
            ⟨"B", [⟨1, 1, Mat44.eye⟩, ⟨2, 1, Mat44.eye⟩, ⟨3, 1, Mat44.eye⟩]⟩
            d.id)) ∧
      (bundleEntryFor (detectTags
        ⟨[], [⟨"B", [⟨1, 1, Mat44.eye⟩, ⟨2, 1, Mat44.eye⟩, ⟨3, 1, Mat44.eye⟩]⟩]⟩
        [⟨1, M0⟩]).2
        ⟨"B", [⟨1, 1, Mat44.eye⟩, ⟨2, 1, Mat44.eye⟩, ⟨3, 1, Mat44.eye⟩]⟩ =
        if (removeDuplicates [⟨1, M0⟩]).any (fun d =>
          TagBundleDescription.isMember
            ⟨"B", [⟨1, 1, Mat44.eye⟩, ⟨2, 1, Mat44.eye⟩, ⟨3, 1, Mat44.eye⟩]⟩
            d.id) then
          some ⟨TagBundleDescription.bundleIds
            ⟨"B", [⟨1, 1, Mat44.eye⟩, ⟨2, 1, Mat44.eye⟩, ⟨3, 1, Mat44.eye⟩]⟩,
            TagBundleDescription.bundleSizes
            ⟨"B", [⟨1, 1, Mat44.eye⟩, ⟨2, 1, Mat44.eye⟩, ⟨3, 1, Mat44.eye⟩]⟩⟩
        else none)) :=
  ⟨⟨by decide, by decide⟩,
    claim_C3_bundle_entries
      ⟨[], [⟨"B", [⟨1, 1, Mat44.eye⟩, ⟨2, 1, Mat44.eye⟩, ⟨3, 1, Mat44.eye⟩]⟩]⟩
      [⟨1, M0⟩]
      ⟨"B", [⟨1, 1, Mat44.eye⟩, ⟨2, 1, Mat44.eye⟩, ⟨3, 1, Mat44.eye⟩]⟩
      (by decide) (by decide)⟩

/-- When every bundle member's size agrees with any standalone declaration
of the same id, the bundle section parses successfully — no other check can
fail it. -/
lemma parse_ok_of_no_mismatch (reg : List StandaloneTagDescription)
    (tag_bundles : List RawBundle)
    (hok : ∀ m ∈ allLayoutMembers tag_bundles, ∀ desc,
      findStandaloneTagDescription reg m.id = some desc →
        m.size = desc.size) :
    ∃ bs, parseTagBundles reg tag_bundles = Except.ok bs := by
  have herr : isError (parseTagBundles reg tag_bundles) = false := by
    rw [parseTagBundles, isError_parseBundlesFrom]
    rw [List.any_eq_false]
    intro rb hrb
    rw [Bool.not_eq_true, List.any_eq_false]
    intro m hm
    rw [memberMismatch_iff]
    rintro ⟨desc, hfind, hne⟩
    refine hne (hok m ?_ desc hfind)
    simp only [allLayoutMembers, List.mem_flatten]
    exact ⟨rb.layout, List.mem_map_of_mem RawBundle.layout hrb, hm⟩
  cases h : parseTagBundles reg tag_bundles with
  | ok bs => exact ⟨bs, rfl⟩
  | error e =>
    rw [h] at herr
    simp [isError] at herr

/-- Claim C7: a tag id registered in more than one configured bundle is
accepted at load time — `parseTagBundles` succeeds whenever the
standalone/bundle size cross-check passes, with no cross-bundle uniqueness
check — and at run time a detection of that id contributes its four
object/image points to the accumulator of each of the two (and, by the same
argument, every) containing bundles within the same frame, so it
participates in every containing bundle's pose solve. -/
theorem claim_C7_shared_bundle_member (cfg : TagDetectorConfig)
    (st : Acc × List AprilTagDetection) (d : Det) (x : ℤ)
    (b1 b2 : TagBundleDescription)
    (reg : List StandaloneTagDescription) (tag_bundles : List RawBundle)
    (hnodup :
      (cfg.tag_bundle_descriptions.map TagBundleDescription.name).Nodup)
    (h1 : b1 ∈ cfg.tag_bundle_descriptions)
    (h2 : b2 ∈ cfg.tag_bundle_descriptions)
    (hm1 : b1.isMember x = true) (hm2 : b2.isMember x = true)
    (hd : d.id = x)
    (hdup : ∃ rb1 ∈ tag_bundles, ∃ rb2 ∈ tag_bundles, rb1 ≠ rb2 ∧
      (∃ m1 ∈ rb1.layout, m1.id = x) ∧ ∃ m2 ∈ rb2.layout, m2.id = x)
    (hok : ∀ m ∈ allLayoutMembers tag_bundles, ∀ desc,
      findStandaloneTagDescription reg m.id = some desc →
        m.size = desc.size) :
    (∃ bs, parseTagBundles reg tag_bundles = Except.ok bs) ∧
    List.lookup b1.name (processDetection cfg st d).1 =
      some (((List.lookup b1.name st.1).getD ([], [])).1 ++ contribObj b1 d,
        ((List.lookup b1.name st.1).getD ([], [])).2 ++ contribImg d) ∧
    List.lookup b2.name (processDetection cfg st d).1 =
      some (((List.lookup b2.name st.1).getD ([], [])).1 ++ contribObj b2 d,
        ((List.lookup b2.name st.1).getD ([], [])).2 ++ contribImg d) := by
  have hacc : (processDetection cfg st d).1 =
      bundleFold d st.1 cfg.tag_bundle_descriptions := by
    unfold processDetection
    cases findStandaloneTagDescription cfg.standalone_tag_descriptions
      d.id <;> rfl
  refine ⟨parse_ok_of_no_mismatch reg tag_bundles hok, ?_, ?_⟩
  · rw [hacc, lookup_bundleFold d b1 _ h1 hnodup st.1,
      if_pos (show b1.isMember d.id = true from hd ▸ hm1)]
  · rw [hacc, lookup_bundleFold d b2 _ h2 hnodup st.1,
      if_pos (show b2.isMember d.id = true from hd ▸ hm2)]

/-- Concrete instance of `claim_C7_shared_bundle_member`: id 1 is a member
of both `bW1` and `bW2`; the configuration loads and the detection's points
land in both accumulators. -/
theorem claim_C7_witness :
    (((cfgW.tag_bundle_descriptions.map TagBundleDescription.name).Nodup ∧
      bW1 ∈ cfgW.tag_bundle_descriptions ∧
      bW2 ∈ cfgW.tag_bundle_descriptions ∧
      bW1.isMember 1 = true ∧ bW2.isMember 1 = true ∧ dW.id = 1 ∧
      (∃ rb1 ∈ rawBundlesW, ∃ rb2 ∈ rawBundlesW, rb1 ≠ rb2 ∧
        (∃ m1 ∈ rb1.layout, m1.id = 1) ∧ ∃ m2 ∈ rb2.layout, m2.id = 1) ∧
      (∀ m ∈ allLayoutMembers rawBundlesW, ∀ desc,
        findStandaloneTagDescription [] m.id = some desc →
          m.size = desc.size)) ∧
      ((∃ bs, parseTagBundles [] rawBundlesW = Except.ok bs) ∧
        List.lookup bW1.name
          (processDetection cfgW (([], []) : Acc × List AprilTagDetection)
            dW).1 =
          some (((List.lookup bW1.name
              (([], []) : Acc × List AprilTagDetection).1).getD
                ([], [])).1 ++ contribObj bW1 dW,
            ((List.lookup bW1.name
              (([], []) : Acc × List AprilTagDetection).1).getD
                ([], [])).2 ++ contribImg dW) ∧
        List.lookup bW2.name
          (processDetection cfgW (([], []) : Acc × List AprilTagDetection)
            dW).1 =
          some (((List.lookup bW2.name
              (([], []) : Acc × List AprilTagDetection).1).getD
                ([], [])).1 ++ contribObj bW2 dW,
            ((List.lookup bW2.name
              (([], []) : Acc × List AprilTagDetection).1).getD
                ([], [])).2 ++ contribImg dW))) :=
  ⟨⟨by decide, by decide, by decide, by decide, by decide, by decide,
    by decide,
    by
      intro m hm desc hdesc
      simp [findStandaloneTagDescription] at hdesc⟩,
    claim_C7_shared_bundle_member cfgW ([], []) dW 1 bW1 bW2 [] rawBundlesW
      (by decide) (by decide) (by decide) (by decide) (by decide) (by decide)
      (by decide)
      (by
        intro m hm desc hdesc
        simp [findStandaloneTagDescription] at hdesc)⟩

end Apriltags2
